import Mathlib

/-!
Verification of the loop-demonstration module `Loops03For.py`.

Python strings are modelled as `List Char`, Python integers as `Int`,
Python `None`-or-value results as `Option`.  The single demo text file is
modelled as `Option (List Char)`: `none` when the file does not exist, and
`some content` when it exists with the given raw character content.
Iterating a file handle line-by-line is modelled by `splitLines`, which
cuts the raw content at each newline character, a trailing unterminated
segment counting as a final line (CPython's readline behaviour).
-/

namespace Loops03For

/-- `iterate_list`: the loop `out = []; for x in xs: out.append(x); return out`. -/
def iterate_list (xs : List Int) : List Int :=
  xs.foldl (fun out x => out ++ [x]) []

/-- `with_zip`: the loop `for n, a in zip(names, ages): pairs.append((n, a))`;
`zip` stops at the shorter input. -/
def with_zip : List String → List Int → List (String × Int)
  | n :: ns, a :: as' => (n, a) :: with_zip ns as'
  | _, _ => []

/-- `find_first_even`: loop with `break` on the first even element and an
`else` clause that runs only when the loop was not broken. -/
def find_first_even : List Int → Option Int × Bool
  | [] => (none, true)
  | n :: rest => if n % 2 = 0 then (some n, false) else find_first_even rest

/-- `odds_only`: loop with `continue` skipping even elements. -/
def odds_only : List Int → List Int
  | [] => []
  | n :: rest => if n % 2 = 0 then odds_only rest else n :: odds_only rest

/-- Python `range(start, stop)` with the default step of 1. -/
def pyRange (start stop : Int) : List Int :=
  (List.range (stop - start).toNat).map (fun i => start + (i : Int))

/-- `multiplication_table`: nested loops over `range(1, n + 1)` building the
row for each `i` and appending it, i.e. a map of a map. -/
def multiplication_table (n : Int) : List (List Int) :=
  (pyRange 1 (n + 1)).map (fun i => (pyRange 1 (n + 1)).map (fun j => i * j))

/-- `squares_until`: the comprehension `[i * i for i in range(n)]`. -/
def squares_until (n : Int) : List Int :=
  (pyRange 0 n).map (fun i => i * i)

/-- `even_squares_until`: `[i * i for i in range(n) if i % 2 == 0]`. -/
def even_squares_until (n : Int) : List Int :=
  ((pyRange 0 n).filter (fun i => i % 2 = 0)).map (fun i => i * i)

end Loops03For

namespace Loops03For

/-! ### Helper lemmas for the pure list functions -/

theorem foldl_append_singleton (xs : List Int) :
    ∀ init : List Int, xs.foldl (fun out x => out ++ [x]) init = init ++ xs := by
  induction xs with
  | nil => intro init; simp
  | cons x xs ih =>
      intro init
      simp only [List.foldl_cons, ih]
      simp

end Loops03For

open Loops03For

/-- C6: `iterate_list` is the identity on sequences: it returns a list equal
to its input, element for element and in the same order. -/
theorem iterate_list_id (xs : List Int) : iterate_list xs = xs := by
  simpa using foldl_append_singleton xs []

/-- C3: the output length of `with_zip` is the minimum of the input lengths. -/
theorem with_zip_length (names : List String) (ages : List Int) :
    (with_zip names ages).length = min names.length ages.length := by
  induction names generalizing ages with
  | nil => cases ages <;> simp [with_zip]
  | cons n ns ih =>
      cases ages with
      | nil => simp [with_zip]
      | cons a as' =>
          simp only [with_zip, List.length_cons, ih]
          omega

/-- C9: below the minimum of the input lengths, the `i`-th pair produced by
`with_zip` is the pair of the `i`-th elements of the two inputs. -/
theorem with_zip_get (names : List String) (ages : List Int) (i : Nat)
    (hn : i < names.length) (ha : i < ages.length) :
    (with_zip names ages).get? i = some (names.get ⟨i, hn⟩, ages.get ⟨i, ha⟩) := by
  induction names generalizing ages i with
  | nil => simp at hn
  | cons n ns ih =>
      cases ages with
      | nil => simp at ha
      | cons a as' =>
          cases i with
          | zero => simp [with_zip]
          | succ j =>
              simp only [with_zip, List.get?_cons_succ, List.length_cons] at *
              exact ih as' j (Nat.lt_of_succ_lt_succ hn) (Nat.lt_of_succ_lt_succ ha)

/-- Witness for C9 at a concrete input. -/
theorem with_zip_get_witness :
    (with_zip ["Ala", "Ola"] [25, 30, 22]).get? 1 = some ("Ola", 30) :=
  with_zip_get ["Ala", "Ola"] [25, 30, 22] 1 (by decide) (by decide)

/-- C2: `find_first_even` returns a present first value and a `false`
completion flag whenever the input contains an even number, and `(none, true)`
when it contains no even number; the flag is `true` exactly when no even
number was found, i.e. when the loop ran to completion without `break`. -/
theorem find_first_even_spec (nums : List Int) :
    ((∃ n ∈ nums, n % 2 = 0) →
       (find_first_even nums).1.isSome = true ∧ (find_first_even nums).2 = false)
    ∧ ((∀ n ∈ nums, ¬ n % 2 = 0) → find_first_even nums = (none, true))
    ∧ ((find_first_even nums).2 = true ↔ ∀ n ∈ nums, ¬ n % 2 = 0) := by
  induction nums with
  | nil => simp [find_first_even]
  | cons n rest ih =>
      by_cases h : n % 2 = 0
      · simp [find_first_even, h]
      · simp only [find_first_even, if_neg h]
        refine ⟨?_, ?_, ?_⟩
        · intro ⟨m, hm, hme⟩
          rcases List.mem_cons.mp hm with rfl | hmr
          · exact absurd hme h
          · exact ih.1 ⟨m, hmr, hme⟩
        · intro hall
          exact ih.2.1 (fun m hm => hall m (List.mem_cons_of_mem n hm))
        · rw [ih.2.2]
          constructor
          · intro hall m hm
            rcases List.mem_cons.mp hm with rfl | hmr
            · exact h
            · exact hall m hmr
          · intro hall m hm
            exact hall m (List.mem_cons_of_mem n hm)

/-- Witness for C2 at concrete inputs covering both branches. -/
theorem find_first_even_witness :
    ((find_first_even [1, 3, 5, 8, 9]).1.isSome = true
      ∧ (find_first_even [1, 3, 5, 8, 9]).2 = false)
    ∧ find_first_even [1, 3, 5] = (none, true) :=
  ⟨(find_first_even_spec [1, 3, 5, 8, 9]).1 ⟨8, by decide, by decide⟩,
   (find_first_even_spec [1, 3, 5]).2.1 (by decide)⟩

/-- C4: `odds_only` returns exactly the elements failing the evenness
predicate, in their original relative order, i.e. it is the filter of the
input by non-evenness. -/
theorem odds_only_filter (nums : List Int) :
    odds_only nums = nums.filter (fun n => decide (¬ n % 2 = 0)) := by
  induction nums with
  | nil => rfl
  | cons n rest ih =>
      by_cases h : n % 2 = 0
      · simp [odds_only, h, ih, List.filter_cons]
      · have h1 : n % 2 = 1 := by omega
        simp [odds_only, h, ih, List.filter_cons, h1]

/-- C5: `squares_until` and `even_squares_until` match direct recomputation
of the squares (respectively even-indexed squares) of `0..n-1` for each
`n` in `{0, 1, 5, 10}`. -/
theorem squares_until_concrete :
    squares_until 0 = [] ∧ even_squares_until 0 = []
    ∧ squares_until 1 = [0] ∧ even_squares_until 1 = [0]
    ∧ squares_until 5 = [0, 1, 4, 9, 16] ∧ even_squares_until 5 = [0, 4, 16]
    ∧ squares_until 10 = [0, 1, 4, 9, 16, 25, 36, 49, 64, 81]
    ∧ even_squares_until 10 = [0, 4, 16, 36, 64] := by
  decide

/-- The `range(1, n + 1)` loop bounds, as a map over a natural range. -/
theorem pyRange_one (n : Nat) :
    pyRange 1 ((n : Int) + 1) = (List.range n).map (fun i => (i : Int) + 1) := by
  unfold pyRange
  have h : ((n : Int) + 1 - 1).toNat = n := by omega
  rw [h]
  exact List.map_congr_left (fun i _ => by omega)

/-- C8: for every non-negative integer `n`, `multiplication_table n` is the
`n × n` table whose entry in (0-based) row `i`, column `j` is
`(i + 1) * (j + 1)`. -/
theorem multiplication_table_spec (n : Nat) :
    multiplication_table (n : Int)
      = (List.range n).map (fun i =>
          (List.range n).map (fun j => ((i : Int) + 1) * ((j : Int) + 1))) := by
  unfold multiplication_table
  rw [pyRange_one, List.map_map]
  refine List.map_congr_left (fun i _ => ?_)
  simp only [Function.comp]
  rw [List.map_map]
  exact List.map_congr_left (fun j _ => by simp [Function.comp])

namespace Loops03For

/-! ### The file model

`ensure_file`, `count_lines` and `append_lines` act on the content of one
file, modelled as `Option (List Char)` (`none` = the path does not name an
existing file).  The stateful Python functions become state-passing Lean
functions returning the new file state. -/

/-- Python `line.rstrip("\n")`: drop every trailing newline character. -/
def rstripNl (s : List Char) : List Char :=
  (s.reverse.dropWhile (fun c => c = '\n')).reverse

/-- One line as `append_lines` writes it: `line.rstrip("\n") + "\n"`. -/
def normLine (l : List Char) : List Char :=
  rstripNl l ++ ['\n']

/-- Worker for `splitLines`; `acc` holds the current line read so far,
in reverse. -/
def splitLinesAux : List Char → List Char → List (List Char)
  | acc, [] => if acc.isEmpty then [] else [acc.reverse]
  | acc, c :: rest =>
      if c = '\n' then (acc.reverse ++ ['\n']) :: splitLinesAux [] rest
      else splitLinesAux (c :: acc) rest

/-- The lines yielded by iterating a file handle over the given raw content:
cut after every newline character, a trailing unterminated segment counting
as a final line. -/
def splitLines (s : List Char) : List (List Char) :=
  splitLinesAux [] s

/-- `ensure_file`: create an empty file when the path does not exist,
leave the content untouched otherwise. -/
def ensure_file : Option (List Char) → Option (List Char)
  | none => some []
  | some c => some c

/-- `count_lines`: ensure the file exists, then count its lines by
iterating the handle.  Returns the new file state and the count. -/
def count_lines (st : Option (List Char)) : Option (List Char) × Nat :=
  let st' := ensure_file st
  (st', (splitLines (st'.getD [])).length)

/-- `append_lines`: ensure the file exists, then append each input string,
stripped of trailing newlines and re-terminated with one newline. -/
def append_lines (st : Option (List Char)) (lines : List (List Char)) :
    Option (List Char) :=
  let st' := ensure_file st
  some (lines.foldl (fun content line => content ++ normLine line) (st'.getD []))

/-! ### Lemmas about the file model -/

theorem append_foldl_join (lines : List (List Char)) :
    ∀ init : List Char,
      lines.foldl (fun content line => content ++ normLine line) init
        = init ++ (lines.map normLine).flatten := by
  induction lines with
  | nil => intro init; simp
  | cons l ls ih =>
      intro init
      simp [ih, List.append_assoc]

theorem splitLinesAux_cons_nl (acc rest : List Char) :
    splitLinesAux acc ('\n' :: rest)
      = (acc.reverse ++ ['\n']) :: splitLinesAux [] rest := rfl

theorem splitLinesAux_cons_other (acc : List Char) (c : Char) (rest : List Char)
    (hc : ¬ c = '\n') :
    splitLinesAux acc (c :: rest) = splitLinesAux (c :: acc) rest := by
  simp only [splitLinesAux, if_neg hc]

theorem splitLinesAux_split (a : List Char) :
    ∀ acc b : List Char,
      splitLinesAux acc (a ++ '\n' :: b)
        = splitLinesAux acc (a ++ ['\n']) ++ splitLinesAux [] b := by
  induction a with
  | nil =>
      intro acc b
      rw [List.nil_append, List.nil_append, splitLinesAux_cons_nl, splitLinesAux_cons_nl]
      rfl
  | cons c a' ih =>
      intro acc b
      rw [List.cons_append, List.cons_append]
      by_cases hc : c = '\n'
      · subst hc
        rw [splitLinesAux_cons_nl, splitLinesAux_cons_nl, ih, List.cons_append]
      · rw [splitLinesAux_cons_other _ _ _ hc, splitLinesAux_cons_other _ _ _ hc, ih]

theorem splitLinesAux_single (l : List Char) :
    ∀ acc : List Char, '\n' ∉ l →
      splitLinesAux acc (l ++ ['\n']) = [acc.reverse ++ l ++ ['\n']] := by
  induction l with
  | nil =>
      intro acc _
      rw [List.nil_append, splitLinesAux_cons_nl,
        show splitLinesAux [] [] = [] from rfl]
      simp
  | cons c l' ih =>
      intro acc h
      have hc : ¬ c = '\n' := fun e => h (e ▸ List.mem_cons_self c l')
      rw [List.cons_append, splitLinesAux_cons_other _ _ _ hc,
        ih (c :: acc) (fun hm => h (List.mem_cons_of_mem c hm))]
      simp

theorem splitLines_append (e b : List Char) (h : e.getLast? = some '\n') :
    splitLines (e ++ b) = splitLines e ++ splitLines b := by
  have hne : e ≠ [] := by
    intro he; rw [he] at h; simp at h
  have hlast : e.getLast hne = '\n' := by
    have h1 := List.getLast?_eq_getLast e hne
    rw [h1] at h
    exact Option.some.inj h
  have hsplit : e.dropLast ++ ['\n'] = e := by
    rw [← hlast]
    exact List.dropLast_append_getLast hne
  have h2 : e ++ b = e.dropLast ++ '\n' :: b := by
    rw [← hsplit]; simp
  rw [h2]
  show splitLinesAux [] (e.dropLast ++ '\n' :: b) = _
  rw [splitLinesAux_split]
  rw [show splitLinesAux [] (e.dropLast ++ ['\n']) = splitLines e from by
    show splitLinesAux [] (e.dropLast ++ ['\n']) = splitLinesAux [] e
    rw [hsplit]]
  rfl

theorem splitLines_normLine (l : List Char) (h : '\n' ∉ rstripNl l) :
    splitLines (normLine l) = [normLine l] := by
  show splitLinesAux [] (rstripNl l ++ ['\n']) = _
  rw [splitLinesAux_single (rstripNl l) [] h]
  rfl

theorem normLine_terminated (l : List Char) :
    (normLine l).getLast? = some '\n' := by
  show (rstripNl l ++ ['\n']).getLast? = some '\n'
  simp

theorem splitLines_join (lines : List (List Char))
    (h : ∀ l ∈ lines, '\n' ∉ rstripNl l) :
    splitLines ((lines.map normLine).flatten) = lines.map normLine := by
  induction lines with
  | nil => rfl
  | cons l ls ih =>
      have hl : '\n' ∉ rstripNl l := h l (List.mem_cons_self l ls)
      have hrest := ih (fun m hm => h m (List.mem_cons_of_mem l hm))
      have hj : ((l :: ls).map normLine).flatten = normLine l ++ (ls.map normLine).flatten := by
        simp
      rw [hj, splitLines_append _ _ (normLine_terminated l), splitLines_normLine l hl,
        hrest]
      rfl

theorem append_lines_content (st : Option (List Char)) (lines : List (List Char)) :
    append_lines st lines = some (st.getD [] ++ (lines.map normLine).flatten) := by
  cases st <;> simp [append_lines, ensure_file, append_foldl_join]

theorem count_lines_val (st : Option (List Char)) :
    (count_lines st).2 = (splitLines (st.getD [])).length := by
  cases st <;> rfl

end Loops03For

/-- C1 counterexample: for a pre-existing file whose content is `"x"` (no
trailing newline), appending the single line `"y"` leaves the line count at
1 instead of raising it to 2 — the appended text merges into the unterminated
last line. -/
theorem append_count_counterexample :
    ¬ ((count_lines (append_lines (some ['x']) [['y']])).2
        = (count_lines (some ['x'])).2 + 1) := by
  decide

/-- C1 (amended): if the file's prior content is empty (in particular when
the file did not exist) or ends with a newline, and no input string contains
a newline other than trailing ones, then `append_lines` increases the value
returned by `count_lines` by exactly the number of input strings. -/
theorem append_lines_count (st : Option (List Char)) (lines : List (List Char))
    (hterm : st.getD [] = [] ∨ (st.getD []).getLast? = some '\n')
    (hlines : ∀ l ∈ lines, '\n' ∉ rstripNl l) :
    (count_lines (append_lines st lines)).2 = (count_lines st).2 + lines.length := by
  rw [append_lines_content, count_lines_val, count_lines_val]
  simp only [Option.getD_some]
  rcases hterm with h | h
  · rw [h, List.nil_append, splitLines_join lines hlines]
    simp [splitLines]
    rfl
  · rw [splitLines_append _ _ h, splitLines_join lines hlines]
    simp

/-- Witness for C1 (amended): appending two lines to a newline-terminated
one-line file yields three lines; the theorem applied at that input. -/
theorem append_lines_count_witness :
    (count_lines (append_lines (some ['a', '\n']) [['x'], ['y']])).2
      = (count_lines (some ['a', '\n'])).2 + 2 :=
  append_lines_count (some ['a', '\n']) [['x'], ['y']] (by decide) (by decide)

/-- C7 counterexample: with prior content `"x"` (no trailing newline) and
input `["y"]`, the resulting file's lines are not the prior lines followed by
the written line `"y\n"`: the old line `"x"` was changed into `"xy\n"`. -/
theorem append_frame_counterexample :
    ¬ (splitLines ((append_lines (some ['x']) [['y']]).getD [])
        = splitLines ['x'] ++ [normLine ['y']]) := by
  decide

/-- C7 (amended): `append_lines` never overwrites or reorders existing
content — the new raw content is the old content followed by the written
chunks, each a newline-terminated normalization of an input string; and
whenever the prior content is empty or newline-terminated and the input
strings contain no interior newlines, the resulting lines are exactly the
prior lines followed by the normalized input strings. -/
theorem append_lines_frame (st : Option (List Char)) (lines : List (List Char)) :
    append_lines st lines = some (st.getD [] ++ (lines.map normLine).flatten)
    ∧ (∀ l ∈ lines, (normLine l).getLast? = some '\n')
    ∧ ((st.getD [] = [] ∨ (st.getD []).getLast? = some '\n') →
       (∀ l ∈ lines, '\n' ∉ rstripNl l) →
       splitLines ((append_lines st lines).getD [])
         = splitLines (st.getD []) ++ lines.map normLine) := by
  refine ⟨append_lines_content st lines, fun l _ => normLine_terminated l, ?_⟩
  intro hterm hlines
  rw [append_lines_content]
  simp only [Option.getD_some]
  rcases hterm with h | h
  · rw [h, List.nil_append, splitLines_join lines hlines]
    rfl
  · rw [splitLines_append _ _ h, splitLines_join lines hlines]

/-- Witness for C7 (amended) at a concrete newline-terminated file. -/
theorem append_lines_frame_witness :
    append_lines (some ['a', '\n']) [['x']]
      = some ((some ['a', '\n'] : Option (List Char)).getD []
          ++ ([['x']].map normLine).flatten)
    ∧ splitLines ((append_lines (some ['a', '\n']) [['x']]).getD [])
        = splitLines ((some ['a', '\n'] : Option (List Char)).getD [])
          ++ [['x']].map normLine :=
  ⟨(append_lines_frame (some ['a', '\n']) [['x']]).1,
   (append_lines_frame (some ['a', '\n']) [['x']]).2.2 (by decide) (by decide)⟩

/-- C10: on a path that names no existing file, `count_lines` returns 0 and
leaves an empty file existing at the path. -/
theorem count_lines_missing_file :
    count_lines none = (some [], 0) := by
  decide
